import Mathlib

/-!
Verification of the feature filtering/ranking pipeline of
`analyze_features.py`.

The script loads a list of feature records from a JSON file, builds the
set of 1-based identifiers of passing records, filters the non-passing
records through five predicates, sorts the survivors by a composite
key, and prints at most the first ten of them.

The embedding below translates each piece of that script into Lean:
records become a structure with `Option`-valued fields (an absent JSON
field is `none`, and each `feature.get(key, default)` is `Option.getD`),
the set of passing tests becomes a `Finset Nat`, the filtering loop
becomes structural recursion over the record list carrying the current
index, and the Python stable sort with key
`(complexity == "medium", test_num)` becomes `List.mergeSort` with the
corresponding lexicographic comparator.
-/

namespace AnalyzeFeatures

/-- A feature record as read from the JSON file.  Each field may be
absent (`none`); the script substitutes a default via `.get`. -/
structure FeatureRecord where
  passes : Option Bool
  description : Option String
  complexity : Option String
  dependencies : Option (List Nat)
  category : Option String
deriving DecidableEq, Repr

/-- The dictionary appended to `candidates` for each eligible record. -/
structure Candidate where
  test_num : Nat
  description : String
  complexity : String
  dependencies : List Nat
  category : String
deriving DecidableEq, Repr

/-- `startsWithChars pat cs` is true when `pat` is an initial segment
of `cs` (character-by-character). -/
def startsWithChars : List Char → List Char → Bool
  | [], _ => true
  | _ :: _, [] => false
  | p :: ps, c :: cs => p == c && startsWithChars ps cs

/-- `containsChars pat cs` is true when `pat` occurs "contiguously"
somewhere inside `cs`. -/
def containsChars (pat : List Char) : List Char → Bool
  | [] => startsWithChars pat []
  | c :: cs => startsWithChars pat (c :: cs) || containsChars pat cs

/-- Python's substring test `pat in s`. -/
def strContains (s pat : String) : Bool :=
  containsChars pat.data s.data

/-- Python's `str.lower()`: lower-case every character. -/
def strLower (s : String) : String :=
  ⟨s.data.map Char.toLower⟩

/-- The fixed keyword list of filter 5 (`frontend_keywords`). -/
def frontend_keywords : List String :=
  ["ui", "page", "navigate", "button", "display", "viewer", "interface",
   "layout", "design", "responsive", "dark mode", "logout", "settings",
   "loading", "error", "form", "input", "modal", "dialog"]

/-- The loop building `passing_tests`, starting at 0-based index `i`:
`if feature.get('passes', False): passing_tests.add(i + 1)`. -/
def passingTestsFrom : Nat → List FeatureRecord → Finset Nat
  | _, [] => ∅
  | i, f :: fs =>
    let rest := passingTestsFrom (i + 1) fs
    if f.passes.getD false then insert (i + 1) rest else rest

/-- `passing_tests`: the set of 1-based identifiers of records whose
`passes` field is truthy (absent defaults to `False`). -/
def passingTests (features : List FeatureRecord) : Finset Nat :=
  passingTestsFrom 0 features

/-- The five filters of the candidate loop, as one boolean predicate.
A record survives iff none of the `continue` statements fires. -/
def isEligible (passing : Finset Nat) (f : FeatureRecord) : Bool :=
  -- Filter 1: passes must be false (`feature.get('passes', True)`)
  !(f.passes.getD true)
  -- Filter 3: not database-dependent
  && (let description := strLower (f.description.getD "")
      !(strContains description "database" || strContains description "postgresql"))
  -- Filter 4: simple or medium complexity
  && (f.complexity == some "simple" || f.complexity == some "medium")
  -- Filter 2: all dependencies (if any) in passing_tests
  && (let deps := f.dependencies.getD []
      deps.isEmpty || deps.all (fun dep => decide (dep ∈ passing)))
  -- Filter 5: UI / navigation / frontend keyword match
  && (let description := strLower (f.description.getD "")
      frontend_keywords.any (fun keyword => strContains description keyword))

/-- The dictionary `candidates.append({...})` builds for a surviving
record with 1-based identifier `testNum`. -/
def mkCandidate (testNum : Nat) (f : FeatureRecord) : Candidate :=
  { test_num := testNum
    description := f.description.getD ""
    complexity := f.complexity.getD ""
    dependencies := f.dependencies.getD []
    category := f.category.getD "" }

/-- The candidate-collecting loop, starting at 0-based index `i`. -/
def candidatesFrom (passing : Finset Nat) : Nat → List FeatureRecord → List Candidate
  | _, [] => []
  | i, f :: fs =>
    let rest := candidatesFrom passing (i + 1) fs
    if isEligible passing f then mkCandidate (i + 1) f :: rest else rest

/-- `candidates`: the ordered list of survivors of all five filters. -/
def candidates (features : List FeatureRecord) : List Candidate :=
  candidatesFrom (passingTests features) 0 features

/-- First component of the sort key: `x['complexity'] == 'medium'`. -/
def medKey (c : Candidate) : Bool :=
  c.complexity == "medium"

/-- The comparator realising Python's ascending sort by the tuple
`(x['complexity'] == 'medium', x['test_num'])` (lexicographic, with
`False < True`). -/
def candLE (a b : Candidate) : Bool :=
  (!medKey a && medKey b) || (medKey a == medKey b && a.test_num ≤ b.test_num)

/-- `candidates.sort(key=lambda x: (x['complexity'] == 'medium', x['test_num']))`. -/
def rankedCandidates (features : List FeatureRecord) : List Candidate :=
  (candidates features).mergeSort candLE

/-- The candidate blocks printed by the final loop: `candidates[:10]`. -/
def report (features : List FeatureRecord) : List Candidate :=
  (rankedCandidates features).take 10

/-- Everything the script prints, as data: the sorted passing list and
the reported candidate blocks. -/
structure ScriptOutput where
  passingList : List Nat
  reportBlocks : List Candidate
deriving DecidableEq, Repr

/-- Modelled from the spec: the run as a whole.  `json.load` is
external library code; its outcome is the `Except` argument (`.error`
when the file content is not valid parseable structured data).  The
script parses before printing anything, so on a parse failure the run
terminates with no output at all, and otherwise the full output is
produced from the parsed records. -/
def runScript : Except String (List FeatureRecord) → Except String ScriptOutput
  | .error e => .error e
  | .ok features =>
      .ok { passingList := (passingTests features).sort (· ≤ ·)
            reportBlocks := report features }

/-! ### Concrete fixtures (Scenario A of the spec, plus two excluded records) -/

/-- Scenario A, record 1: a passing test. -/
def exRec1 : FeatureRecord := ⟨some true, none, none, none, none⟩

/-- Scenario A, record 2: an eligible frontend feature depending on test 1. -/
def exRec2 : FeatureRecord :=
  ⟨some false, some "Add dark mode toggle button", some "simple", some [1], some "UI"⟩

/-- Scenario A input. -/
def exFeatures : List FeatureRecord := [exRec1, exRec2]

/-- The candidate produced for `exRec2`. -/
def exCand : Candidate := ⟨2, "Add dark mode toggle button", "simple", [1], "UI"⟩

/-- A record whose description mentions a database. -/
def exRecDB : FeatureRecord :=
  ⟨some false, some "Fix PostgreSQL database sync", some "simple", some [], some "backend"⟩

/-- A record with complexity outside the allowed pair. -/
def exRecComplex : FeatureRecord :=
  ⟨some false, some "Rewrite page layout engine", some "complex", some [], some "UI"⟩

/-! ### Basic lemmas about the embedding -/

/-- `o.getD false = true` exactly for `o = some true`. -/
theorem Option.getD_false_eq_true_iff (o : Option Bool) :
    (o.getD false = true) ↔ o = some true := by
  cases o <;> simp

/-- `o.getD true = false` exactly for `o = some false`. -/
theorem Option.getD_true_eq_false_iff (o : Option Bool) :
    (o.getD true = false) ↔ o = some false := by
  cases o <;> simp

/-- Membership in the partial passing set built from index `k` onwards. -/
theorem mem_passingTestsFrom (fs : List FeatureRecord) :
    ∀ (k n : Nat), n ∈ passingTestsFrom k fs ↔
      ∃ i, ∃ h : i < fs.length,
        (fs.get ⟨i, h⟩).passes.getD false = true ∧ n = k + i + 1 := by
  induction fs with
  | nil => intro k n; simp [passingTestsFrom]
  | cons f fs ih =>
    intro k n
    simp only [passingTestsFrom]
    by_cases hp : f.passes.getD false = true
    · rw [if_pos hp]
      simp only [Finset.mem_insert, ih (k + 1) n]
      constructor
      · rintro (rfl | ⟨i, h, hpass, rfl⟩)
        · exact ⟨0, by simp, by simpa using hp, by omega⟩
        · exact ⟨i + 1, by simpa using Nat.succ_lt_succ h, by simpa using hpass, by omega⟩
      · rintro ⟨i, h, hpass, rfl⟩
        cases i with
        | zero => exact Or.inl (by omega)
        | succ j =>
          refine Or.inr ⟨j, by simpa using Nat.lt_of_succ_lt_succ h, ?_, by omega⟩
          simpa using hpass
    · rw [if_neg hp]
      rw [ih (k + 1) n]
      constructor
      · rintro ⟨i, h, hpass, rfl⟩
        exact ⟨i + 1, by simpa using Nat.succ_lt_succ h, by simpa using hpass, by omega⟩
      · rintro ⟨i, h, hpass, rfl⟩
        cases i with
        | zero => exact absurd (by simpa using hpass) hp
        | succ j =>
          refine ⟨j, by simpa using Nat.lt_of_succ_lt_succ h, ?_, by omega⟩
          simpa using hpass

/-- Membership in the partial candidate list built from index `k` onwards. -/
theorem mem_candidatesFrom (passing : Finset Nat) (fs : List FeatureRecord) :
    ∀ (k : Nat) (c : Candidate), c ∈ candidatesFrom passing k fs ↔
      ∃ i, ∃ h : i < fs.length,
        isEligible passing (fs.get ⟨i, h⟩) = true ∧
        c = mkCandidate (k + i + 1) (fs.get ⟨i, h⟩) := by
  induction fs with
  | nil => intro k c; simp [candidatesFrom]
  | cons f fs ih =>
    intro k c
    simp only [candidatesFrom]
    by_cases he : isEligible passing f = true
    · rw [if_pos he]
      simp only [List.mem_cons, ih (k + 1) c]
      constructor
      · rintro (rfl | ⟨i, h, helig, rfl⟩)
        · exact ⟨0, by simp, by simpa using he, by simp⟩
        · refine ⟨i + 1, by simpa using Nat.succ_lt_succ h, by simpa using helig, ?_⟩
          simp only [List.get_cons_succ]
          congr 1
          omega
      · rintro ⟨i, h, helig, rfl⟩
        cases i with
        | zero => exact Or.inl (by simp)
        | succ j =>
          refine Or.inr ⟨j, by simpa using Nat.lt_of_succ_lt_succ h, by simpa using helig, ?_⟩
          simp only [List.get_cons_succ]
          congr 1
          omega
    · rw [if_neg he]
      rw [ih (k + 1) c]
      constructor
      · rintro ⟨i, h, helig, rfl⟩
        refine ⟨i + 1, by simpa using Nat.succ_lt_succ h, by simpa using helig, ?_⟩
        simp only [List.get_cons_succ]
        congr 1
        omega
      · rintro ⟨i, h, helig, rfl⟩
        cases i with
        | zero => exact absurd (by simpa using helig) he
        | succ j =>
          refine ⟨j, by simpa using Nat.lt_of_succ_lt_succ h, by simpa using helig, ?_⟩
          simp only [List.get_cons_succ]
          congr 1
          omega

/-- Membership in `candidates`, unfolded to the originating record. -/
theorem mem_candidates (fs : List FeatureRecord) (c : Candidate) :
    c ∈ candidates fs ↔
      ∃ i, ∃ h : i < fs.length,
        isEligible (passingTests fs) (fs.get ⟨i, h⟩) = true ∧
        c = mkCandidate (i + 1) (fs.get ⟨i, h⟩) := by
  simpa using mem_candidatesFrom (passingTests fs) fs 0 c

/-- The five filters, decomposed into the five predicates of the spec. -/
theorem isEligible_decomp (passing : Finset Nat) (f : FeatureRecord)
    (h : isEligible passing f = true) :
    f.passes = some false ∧
    strContains (strLower (f.description.getD "")) "database" = false ∧
    strContains (strLower (f.description.getD "")) "postgresql" = false ∧
    (f.complexity = some "simple" ∨ f.complexity = some "medium") ∧
    (∀ dep ∈ f.dependencies.getD [], dep ∈ passing) ∧
    (frontend_keywords.any fun keyword =>
      strContains (strLower (f.description.getD "")) keyword) = true := by
  simp only [isEligible, Bool.and_eq_true, Bool.not_eq_true', Bool.or_eq_false_iff,
    Bool.or_eq_true, List.all_eq_true, decide_eq_true_eq, beq_iff_eq,
    List.isEmpty_iff] at h
  obtain ⟨⟨⟨⟨h1, h2, h3⟩, h4⟩, h5⟩, h6⟩ := h
  refine ⟨(Option.getD_true_eq_false_iff f.passes).mp h1, h2, h3, h4, ?_, h6⟩
  rcases h5 with hempty | hall
  · intro dep hdep; rw [hempty] at hdep; cases hdep
  · exact hall

/-- Conversely, eligibility follows from the five decomposed predicates. -/
theorem isEligible_of_decomp (passing : Finset Nat) (f : FeatureRecord)
    (h1 : f.passes = some false)
    (h2 : strContains (strLower (f.description.getD "")) "database" = false)
    (h3 : strContains (strLower (f.description.getD "")) "postgresql" = false)
    (h4 : f.complexity = some "simple" ∨ f.complexity = some "medium")
    (h5 : ∀ dep ∈ f.dependencies.getD [], dep ∈ passing)
    (h6 : (frontend_keywords.any fun keyword =>
      strContains (strLower (f.description.getD "")) keyword) = true) :
    isEligible passing f = true := by
  simp only [isEligible, Bool.and_eq_true, Bool.not_eq_true', Bool.or_eq_false_iff,
    Bool.or_eq_true, List.all_eq_true, decide_eq_true_eq, beq_iff_eq,
    List.isEmpty_iff]
  exact ⟨⟨⟨⟨(Option.getD_true_eq_false_iff f.passes).mpr h1, h2, h3⟩, h4⟩,
    Or.inr h5⟩, h6⟩

/-- Every candidate collected from index `k` onwards has `test_num > k`. -/
theorem testNum_lt_of_mem_candidatesFrom (passing : Finset Nat) (fs : List FeatureRecord) :
    ∀ (k : Nat) (c : Candidate), c ∈ candidatesFrom passing k fs → k < c.test_num := by
  intro k c hc
  rw [mem_candidatesFrom] at hc
  obtain ⟨i, h, -, rfl⟩ := hc
  simp only [mkCandidate]
  omega

/-- The collected candidates carry strictly increasing `test_num` values
(in input order). -/
theorem pairwise_testNum_candidatesFrom (passing : Finset Nat) (fs : List FeatureRecord) :
    ∀ (k : Nat), (candidatesFrom passing k fs).Pairwise
      (fun a b => a.test_num < b.test_num) := by
  induction fs with
  | nil => intro k; simp [candidatesFrom]
  | cons f fs ih =>
    intro k
    simp only [candidatesFrom]
    by_cases he : isEligible passing f = true
    · rw [if_pos he]
      refine List.Pairwise.cons ?_ (ih (k + 1))
      intro b hb
      have := testNum_lt_of_mem_candidatesFrom passing fs (k + 1) b hb
      simp only [mkCandidate]
      omega
    · rw [if_neg he]
      exact ih (k + 1)

/-- `candidates` has strictly increasing `test_num` values. -/
theorem pairwise_testNum_candidates (fs : List FeatureRecord) :
    (candidates fs).Pairwise (fun a b => a.test_num < b.test_num) :=
  pairwise_testNum_candidatesFrom (passingTests fs) fs 0

/-- The comparator is total. -/
theorem candLE_total (a b : Candidate) : candLE a b || candLE b a := by
  cases ha : medKey a <;> cases hb : medKey b <;>
    simp [candLE, ha, hb] <;> omega

/-- The comparator is transitive. -/
theorem candLE_trans (a b c : Candidate) :
    candLE a b → candLE b c → candLE a c := by
  cases ha : medKey a <;> cases hb : medKey b <;> cases hc : medKey c <;>
    simp [candLE, ha, hb, hc] <;> omega

/-- Sorting permutes the candidate list. -/
theorem rankedCandidates_perm (fs : List FeatureRecord) :
    List.Perm (rankedCandidates fs) (candidates fs) :=
  List.mergeSort_perm (candidates fs) candLE

/-- Membership in the ranked list is membership in the candidate list. -/
theorem mem_rankedCandidates (fs : List FeatureRecord) (c : Candidate) :
    c ∈ rankedCandidates fs ↔ c ∈ candidates fs :=
  (rankedCandidates_perm fs).mem_iff

/-- The ranked list is sorted by the comparator. -/
theorem pairwise_candLE_rankedCandidates (fs : List FeatureRecord) :
    (rankedCandidates fs).Pairwise (fun a b => candLE a b) :=
  List.sorted_mergeSort candLE_trans candLE_total (candidates fs)

/-- `test_num` values stay pairwise distinct after sorting. -/
theorem pairwise_testNum_ne_rankedCandidates (fs : List FeatureRecord) :
    (rankedCandidates fs).Pairwise (fun a b => a.test_num ≠ b.test_num) := by
  have hsym : Symmetric (fun a b : Candidate => a.test_num ≠ b.test_num) :=
    fun a b h => Ne.symm h
  refine ((rankedCandidates_perm fs).pairwise_iff (fun hxy => hsym hxy)).mpr ?_
  exact (pairwise_testNum_candidates fs).imp (fun h => Nat.ne_of_lt h)

/-! ### The claims -/

/-- C1: for every input sequence, the passing set contains exactly the
1-based identifiers (position + 1) of the records whose `passes` field
is present and equals true; records whose `passes` field is absent or
false are not in the set. -/
theorem claim_C1_passing_set (fs : List FeatureRecord) (n : Nat) :
    n ∈ passingTests fs ↔
      ∃ i, ∃ h : i < fs.length,
        (fs.get ⟨i, h⟩).passes = some true ∧ n = i + 1 := by
  rw [passingTests, mem_passingTestsFrom]
  constructor
  · rintro ⟨i, h, hp, rfl⟩
    exact ⟨i, h, (Option.getD_false_eq_true_iff _).mp hp, by omega⟩
  · rintro ⟨i, h, hp, rfl⟩
    exact ⟨i, h, (Option.getD_false_eq_true_iff _).mpr hp, by omega⟩

/-- C2: every candidate produced by the eligibility filter stems from a
record whose `passes` field is present and exactly equal to `false`;
in particular a record with an absent `passes` field never yields a
candidate. -/
theorem claim_C2_passes_false (fs : List FeatureRecord) (c : Candidate)
    (hc : c ∈ candidates fs) :
    ∃ i, ∃ h : i < fs.length,
      c = mkCandidate (i + 1) (fs.get ⟨i, h⟩) ∧
      (fs.get ⟨i, h⟩).passes = some false := by
  rw [mem_candidates] at hc
  obtain ⟨i, h, helig, rfl⟩ := hc
  exact ⟨i, h, rfl, (isEligible_decomp _ _ helig).1⟩

/-- Witness for C2 at Scenario A. -/
theorem claim_C2_passes_false_witness :
    exCand ∈ candidates exFeatures ∧
    ∃ i, ∃ h : i < exFeatures.length,
      exCand = mkCandidate (i + 1) (exFeatures.get ⟨i, h⟩) ∧
      (exFeatures.get ⟨i, h⟩).passes = some false :=
  ⟨by decide, claim_C2_passes_false exFeatures exCand (by decide)⟩

/-- C3: after ranking, every candidate with complexity `"simple"`
precedes every candidate with complexity `"medium"` (no `"medium"`
candidate comes before a `"simple"` one), and within each complexity
tier the `test_num` values are strictly ascending. -/
theorem claim_C3_ranking_order (fs : List FeatureRecord) :
    (rankedCandidates fs).Pairwise (fun a b =>
      ¬(a.complexity = "medium" ∧ b.complexity = "simple") ∧
      (a.complexity = b.complexity → a.test_num < b.test_num)) := by
  have h := (pairwise_candLE_rankedCandidates fs).and
    (pairwise_testNum_ne_rankedCandidates fs)
  refine h.imp ?_
  rintro a b ⟨hle, hne⟩
  simp only [candLE, medKey, Bool.or_eq_true, Bool.and_eq_true,
    Bool.not_eq_true', beq_iff_eq, beq_eq_false_iff_ne, ne_eq,
    decide_eq_true_eq] at hle
  constructor
  · rintro ⟨haM, hbS⟩
    rcases hle with ⟨hna, -⟩ | ⟨heq, -⟩
    · exact hna haM
    · rw [haM, hbS] at heq
      simp at heq
  · intro hcc
    rcases hle with ⟨hna, hb⟩ | ⟨-, hle2⟩
    · exact absurd (hcc.trans hb) hna
    · exact Nat.lt_of_le_of_ne hle2 hne

/-- C4: every dependency identifier stored in a produced candidate is a
member of the passing set; a candidate with an empty dependency list
satisfies this vacuously. -/
theorem claim_C4_dependencies_met (fs : List FeatureRecord) (c : Candidate)
    (hc : c ∈ candidates fs) :
    ∀ dep ∈ c.dependencies, dep ∈ passingTests fs := by
  rw [mem_candidates] at hc
  obtain ⟨i, h, helig, rfl⟩ := hc
  simpa [mkCandidate] using (isEligible_decomp _ _ helig).2.2.2.2.1

/-- Witness for C4 at Scenario A (a candidate with one dependency). -/
theorem claim_C4_dependencies_met_witness :
    exCand ∈ candidates exFeatures ∧
    ∀ dep ∈ exCand.dependencies, dep ∈ passingTests exFeatures :=
  ⟨by decide, claim_C4_dependencies_met exFeatures exCand (by decide)⟩

/-- C5: the report holds at most 10 candidate blocks even when more
candidates qualify, and exactly as many as qualify when fewer than 10
do (the length of the reported list is the minimum of 10 and the
number of qualifying candidates; no error is possible). -/
theorem claim_C5_report_length (fs : List FeatureRecord) :
    (report fs).length = min 10 (candidates fs).length := by
  rw [report, List.length_take, (rankedCandidates_perm fs).length_eq]

/-- C6: when the input file's content does not parse as structured
data, the run fails with that error and produces no output at all (the
script parses before printing anything). -/
theorem claim_C6_parse_failure (e : String) :
    runScript (Except.error e) = Except.error e := rfl

/-- C7: no produced candidate's lower-cased description contains the
substring `"database"` or `"postgresql"`, and any record whose
lower-cased description contains either substring is excluded by the
filter no matter what its other fields hold. -/
theorem claim_C7_database_filter :
    (∀ (fs : List FeatureRecord) (c : Candidate), c ∈ candidates fs →
      strContains (strLower c.description) "database" = false ∧
      strContains (strLower c.description) "postgresql" = false) ∧
    (∀ (passing : Finset Nat) (f : FeatureRecord),
      (strContains (strLower (f.description.getD "")) "database" = true ∨
       strContains (strLower (f.description.getD "")) "postgresql" = true) →
      isEligible passing f = false) := by
  constructor
  · intro fs c hc
    rw [mem_candidates] at hc
    obtain ⟨i, h, helig, rfl⟩ := hc
    have hd := isEligible_decomp _ _ helig
    exact ⟨by simpa [mkCandidate] using hd.2.1, by simpa [mkCandidate] using hd.2.2.1⟩
  · intro passing f hdb
    cases hv : isEligible passing f with
    | false => rfl
    | true =>
      exfalso
      have hd := isEligible_decomp passing f hv
      rcases hdb with h | h
      · rw [hd.2.1] at h; exact Bool.noConfusion h
      · rw [hd.2.2.1] at h; exact Bool.noConfusion h

/-- Witness for C7: the Scenario A candidate, and a database-flavoured
record that is rejected. -/
theorem claim_C7_database_filter_witness :
    (exCand ∈ candidates exFeatures ∧
     strContains (strLower exCand.description) "database" = false ∧
     strContains (strLower exCand.description) "postgresql" = false) ∧
    (strContains (strLower (exRecDB.description.getD "")) "postgresql" = true ∧
     isEligible ∅ exRecDB = false) :=
  ⟨⟨by decide, claim_C7_database_filter.1 exFeatures exCand (by decide)⟩,
   ⟨by decide, claim_C7_database_filter.2 ∅ exRecDB (Or.inr (by decide))⟩⟩

/-- C8: every produced candidate's complexity is exactly `"simple"` or
exactly `"medium"`, and a record whose `complexity` field is anything
else (including absent) is excluded even when all other predicates
hold. -/
theorem claim_C8_complexity_filter :
    (∀ (fs : List FeatureRecord) (c : Candidate), c ∈ candidates fs →
      c.complexity = "simple" ∨ c.complexity = "medium") ∧
    (∀ (passing : Finset Nat) (f : FeatureRecord),
      f.complexity ≠ some "simple" → f.complexity ≠ some "medium" →
      isEligible passing f = false) := by
  constructor
  · intro fs c hc
    rw [mem_candidates] at hc
    obtain ⟨i, h, helig, rfl⟩ := hc
    rcases (isEligible_decomp _ _ helig).2.2.2.1 with h4 | h4
    · refine Or.inl ?_
      show (fs.get ⟨i, h⟩).complexity.getD "" = "simple"
      rw [h4]; rfl
    · refine Or.inr ?_
      show (fs.get ⟨i, h⟩).complexity.getD "" = "medium"
      rw [h4]; rfl
  · intro passing f hs hm
    cases hv : isEligible passing f with
    | false => rfl
    | true =>
      exfalso
      rcases (isEligible_decomp passing f hv).2.2.2.1 with h4 | h4
      · exact hs h4
      · exact hm h4

/-- Witness for C8: the Scenario A candidate, and a record with
complexity `"complex"` that is rejected. -/
theorem claim_C8_complexity_filter_witness :
    (exCand ∈ candidates exFeatures ∧
     (exCand.complexity = "simple" ∨ exCand.complexity = "medium")) ∧
    (exRecComplex.complexity ≠ some "simple" ∧
     exRecComplex.complexity ≠ some "medium" ∧
     isEligible ∅ exRecComplex = false) :=
  ⟨⟨by decide, claim_C8_complexity_filter.1 exFeatures exCand (by decide)⟩,
   ⟨by decide, by decide,
    claim_C8_complexity_filter.2 ∅ exRecComplex (by decide) (by decide)⟩⟩

/-- C9: every produced candidate's lower-cased description contains at
least one of the fixed frontend keywords as a substring (the match is
plain substring containment on the lower-cased text, with no
word-boundary test). -/
theorem claim_C9_keyword_filter (fs : List FeatureRecord) (c : Candidate)
    (hc : c ∈ candidates fs) :
    (frontend_keywords.any fun keyword =>
      strContains (strLower c.description) keyword) = true := by
  rw [mem_candidates] at hc
  obtain ⟨i, h, helig, rfl⟩ := hc
  simpa [mkCandidate] using (isEligible_decomp _ _ helig).2.2.2.2.2

/-- Witness for C9 at Scenario A. -/
theorem claim_C9_keyword_filter_witness :
    exCand ∈ candidates exFeatures ∧
    (frontend_keywords.any fun keyword =>
      strContains (strLower exCand.description) keyword) = true :=
  ⟨by decide, claim_C9_keyword_filter exFeatures exCand (by decide)⟩

/-- C10: every candidate that survives to the ranked list (and hence to
the report, its 10-element initial segment) carries exactly the fields
of its originating record, with defaults substituted for absent
fields: `description` keeps its original casing, and neither sorting
nor reporting alters a stored field. -/
theorem claim_C10_fields_preserved (fs : List FeatureRecord) (c : Candidate)
    (hc : c ∈ rankedCandidates fs ∨ c ∈ report fs) :
    ∃ i, ∃ h : i < fs.length,
      c.test_num = i + 1 ∧
      c.description = (fs.get ⟨i, h⟩).description.getD "" ∧
      c.complexity = (fs.get ⟨i, h⟩).complexity.getD "" ∧
      c.dependencies = (fs.get ⟨i, h⟩).dependencies.getD [] ∧
      c.category = (fs.get ⟨i, h⟩).category.getD "" := by
  have hc' : c ∈ candidates fs := by
    rcases hc with h | h
    · exact (mem_rankedCandidates fs c).mp h
    · simp only [report] at h
      exact (mem_rankedCandidates fs c).mp (List.mem_of_mem_take h)
  rw [mem_candidates] at hc'
  obtain ⟨i, h, -, rfl⟩ := hc'
  exact ⟨i, h, rfl, rfl, rfl, rfl, rfl⟩

/-- Witness for C10 at Scenario A. -/
theorem claim_C10_fields_preserved_witness :
    exCand ∈ rankedCandidates exFeatures ∧
    ∃ i, ∃ h : i < exFeatures.length,
      exCand.test_num = i + 1 ∧
      exCand.description = (exFeatures.get ⟨i, h⟩).description.getD "" ∧
      exCand.complexity = (exFeatures.get ⟨i, h⟩).complexity.getD "" ∧
      exCand.dependencies = (exFeatures.get ⟨i, h⟩).dependencies.getD [] ∧
      exCand.category = (exFeatures.get ⟨i, h⟩).category.getD "" := by
  have hmem : exCand ∈ rankedCandidates exFeatures := by
    have hsorted : (candidates exFeatures).Pairwise (fun a b => candLE a b) := by
      decide
    have heq : rankedCandidates exFeatures = candidates exFeatures :=
      List.mergeSort_of_sorted hsorted
    rw [heq]
    decide
  exact ⟨hmem, claim_C10_fields_preserved exFeatures exCand (Or.inl hmem)⟩

end AnalyzeFeatures
